import Mathlib

/-!
Shallow embedding of `src/function_proxy.py` (the `proxy_function` argument
remapper) together with a model of the two Python reflection facilities it
uses, `inspect.getfullargspec` (represented by the `FullArgSpec` record an
embedded callable is described by) and `inspect.getcallargs` (embedded as
`getcallargs`, following CPython's algorithm).

Python dictionaries are embedded as association lists with Python's
insert-or-replace update semantics (`alistInsert`, `pyUpdate`); Python values
are embedded by the inductive `Value`.
-/

namespace FunctionProxy

/-- Embedded Python values: enough structure for arguments, rest-positional
tuples and rest-keyword dictionaries. -/
inductive Value : Type where
  | none : Value
  | int : Int → Value
  | str : String → Value
  | list : List Value → Value
  | dict : List (String × Value) → Value

/-- A Python dict with string keys, as an association list (unique keys in
every dict the embedded code builds). -/
abbrev AList : Type := List (String × Value)

/-- Dictionary lookup: first (= only, for genuine dicts) binding of the key. -/
def alistLookup : AList → String → Option Value
  | [], _ => Option.none
  | (k, v) :: rest, key => if k = key then Option.some v else alistLookup rest key

/-- Python dict assignment `d[key] = v`: replace in place if the key exists,
otherwise append at the end. -/
def alistInsert : AList → String → Value → AList
  | [], key, v => [(key, v)]
  | (k, w) :: rest, key, v =>
    if k = key then (key, v) :: rest else (k, w) :: alistInsert rest key v

/-- Python `base.update(upd)`: assign every pair of `upd` into `base`, left to
right. -/
def pyUpdate (base : AList) (upd : AList) : AList :=
  upd.foldl (fun acc p => alistInsert acc p.1 p.2) base

/-- The result of `inspect.getfullargspec` on an embedded callable: declared
positional parameter names in order, optional rest-positional and rest-keyword
collector names, the defaults tuple for the trailing positional parameters
(`Option.none` when the callable declares no defaults, as in CPython), the
keyword-only parameter names, and the keyword-only defaults dict
(`Option.none` when the callable declares no keyword-only defaults, exactly as
CPython's `getfullargspec` returns `None` there). -/
structure FullArgSpec : Type where
  args : List String
  varargs : Option String
  varkw : Option String
  defaults : Option (List Value)
  kwonlyargs : List String
  kwonlydefaults : Option AList

/-- The keyword-processing loop of CPython's `inspect.getcallargs`: each
keyword argument either assigns a parameter in `possible` (error on a value
already assigned, e.g. positionally), or - when not a declared parameter -
is collected for the rest-keyword dict when one is declared, else is an
unexpected-keyword error. Returns the direct assignments and the collected
rest-keyword entries. -/
def bindNamed (possible : List String) (hasVarkw : Bool) :
    List (String × Value) → AList → AList → Except String (AList × AList)
  | [], a2v, extra => Except.ok (a2v, extra)
  | (kw, v) :: rest, a2v, extra =>
    if kw ∈ possible then
      if (alistLookup a2v kw).isSome then
        Except.error ("got multiple values for argument " ++ kw)
      else
        bindNamed possible hasVarkw rest (a2v ++ [(kw, v)]) extra
    else if hasVarkw then
      bindNamed possible hasVarkw rest a2v (extra ++ [(kw, v)])
    else
      Except.error ("got an unexpected keyword argument " ++ kw)

/-- Embedding of `inspect.getcallargs(func, *positional, **named)` following
CPython's algorithm: the first `min` positionals assign the leading declared
parameters; leftover positionals go to the rest-positional collector (error
when none is declared); keywords are processed by `bindNamed`; required
positional parameters still unassigned are an error; unassigned defaulted
positional parameters receive their own defaults (`defaults[i]` aligned with
`args[numArgs - numDefaults + i]`); keyword-only parameters come from the
keywords or from `kwonlydefaults`, else are an error. The returned dict binds
every declared parameter name, the rest-positional name to the tuple of
leftovers, and the rest-keyword name to the dict of collected keywords. -/
def getcallargs (spec : FullArgSpec) (positional : List Value)
    (named : List (String × Value)) : Except String AList :=
  let args := spec.args
  let numPos := positional.length
  let numArgs := args.length
  let ds := spec.defaults.getD []
  let numDefaults := ds.length
  let n := min numPos numArgs
  let pairs : AList := List.zip (args.take n) positional
  (bindNamed (args ++ spec.kwonlyargs) spec.varkw.isSome named pairs []).bind
    (fun pr =>
    let assigned := pr.1
    let extra := pr.2
    if numArgs < numPos ∧ spec.varargs = Option.none then
      Except.error "too many positional arguments"
    else
      let required := args.take (numArgs - numDefaults)
      let missingPos :=
        (required.drop numPos).filter (fun a => (alistLookup assigned a).isNone)
      if missingPos ≠ [] then
        Except.error ("missing required positional arguments: "
          ++ String.intercalate ", " missingPos)
      else
        let defaultFill : AList :=
          (List.zip (args.drop (numArgs - numDefaults)) ds).filter
            (fun p => (alistLookup assigned p.1).isNone)
        let kwd := spec.kwonlydefaults.getD []
        let missingKw := spec.kwonlyargs.filter
          (fun k => (alistLookup assigned k).isNone ∧ (alistLookup kwd k).isNone)
        if missingKw ≠ [] then
          Except.error ("missing required keyword-only arguments: "
            ++ String.intercalate ", " missingKw)
        else
          let kwonlyFill : AList := spec.kwonlyargs.filterMap (fun k =>
            if (alistLookup assigned k).isNone then
              (alistLookup kwd k).map (fun d => (k, d))
            else Option.none)
          let varargsEntry : AList :=
            match spec.varargs with
            | Option.some va => [(va, Value.list (positional.drop n))]
            | Option.none => []
          let varkwEntry : AList :=
            match spec.varkw with
            | Option.some vk => [(vk, Value.dict extra)]
            | Option.none => []
          Except.ok (assigned ++ varargsEntry ++ varkwEntry ++ defaultFill ++ kwonlyFill))

/-- The ways the embedded `proxy_function` can fail: a `TypeError` raised by
`inspect.getcallargs` (the spec's `BindingError`), the two explicit
`ValueError`s of lines 51 and 69 of the source (the spec's
`MissingArgumentError`, carrying the parameter name), the `TypeError` Python
raises at line 66 when `kwonlydefaults` is `None` and a membership test is
attempted on it, and the `TypeError`s Python would raise at lines 55/60 when
the value being splatted is not a sequence / not a mapping. -/
inductive ProxyError : Type where
  | bindingError : String → ProxyError
  | missingPositional : String → ProxyError
  | missingKeyword : String → ProxyError
  | typeErrorNoneMembership : ProxyError
  | typeErrorNotIterable : ProxyError
  | typeErrorNotMapping : ProxyError
deriving DecidableEq

/-- Lines 41-51 of the source: iterate over
`zip(subfunc_specs.args, range(len(args) - 1, -1, -1))`, so the parameter at
index `i` is paired with `default_num = len(args) - 1 - i`, counting down from
the head. A parameter found in `superfunc_arg_values` contributes its bound
value; otherwise, when `default_num < len(defaults)`, the source appends
`defaults[default_num]` (note: indexed by the countdown, not realigned to the
parameter's own default); otherwise `ValueError`. -/
def parsePosAux (ds : List Value) (env : AList) :
    List String → Nat → Except ProxyError (List Value)
  | [], _ => Except.ok []
  | a :: rest, dnum =>
    match alistLookup env a with
    | Option.some v =>
      (parsePosAux ds env rest (dnum - 1)).map (fun out => v :: out)
    | Option.none =>
      if dnum < ds.length then
        (parsePosAux ds env rest (dnum - 1)).map
          (fun out => ds.getD dnum Value.none :: out)
      else
        Except.error (ProxyError.missingPositional a)

/-- Lines 53-56 of the source: when the sub-callable declares a
rest-positional collector whose name is bound in `superfunc_arg_values`, splat
that value onto the end of `context_args`; when the name is absent (or no
collector is declared) the arguments pass through unchanged. -/
def varargsStep (sub : FullArgSpec) (env : AList) (ctxArgs : List Value) :
    Except ProxyError (List Value) :=
  match sub.varargs with
  | Option.none => Except.ok ctxArgs
  | Option.some va =>
    match alistLookup env va with
    | Option.none => Except.ok ctxArgs
    | Option.some (Value.list vs) => Except.ok (ctxArgs ++ vs)
    | Option.some _ => Except.error ProxyError.typeErrorNotIterable

/-- Lines 58-62 of the source: `context_kwargs` starts as
`dict(**superfunc_arg_values[subfunc_specs.varkw])` when the sub-callable
declares a rest-keyword collector whose name is bound, else as the empty
dict. -/
def varkwStep (sub : FullArgSpec) (env : AList) : Except ProxyError AList :=
  match sub.varkw with
  | Option.none => Except.ok []
  | Option.some vk =>
    match alistLookup env vk with
    | Option.none => Except.ok []
    | Option.some (Value.dict es) => Except.ok es
    | Option.some _ => Except.error ProxyError.typeErrorNotMapping

/-- Lines 63-69 of the source: each keyword-only parameter of the
sub-callable takes its bound value when present in `superfunc_arg_values`;
otherwise the source evaluates `kwarg_name in subfunc_specs.kwonlydefaults`,
which is a `TypeError` when `kwonlydefaults` is `None` and otherwise yields
the declared default or the final `ValueError`. -/
def parseKwonly (env : AList) (kd : Option AList) :
    List String → AList → Except ProxyError AList
  | [], acc => Except.ok acc
  | k :: rest, acc =>
    match alistLookup env k with
    | Option.some v => parseKwonly env kd rest (alistInsert acc k v)
    | Option.none =>
      match kd with
      | Option.none => Except.error ProxyError.typeErrorNoneMembership
      | Option.some kdl =>
        match alistLookup kdl k with
        | Option.some d => parseKwonly env kd rest (alistInsert acc k d)
        | Option.none => Except.error (ProxyError.missingKeyword k)

/-- Lines 39-70 of the source: everything `proxy_function` does after the
bound-argument dict `superfunc_arg_values` (here `env`, already updated with
the mapping) is in hand. -/
def remapCore (sub : FullArgSpec) (env : AList) :
    Except ProxyError (List Value × AList) :=
  (parsePosAux (sub.defaults.getD []) env sub.args (sub.args.length - 1)).bind
    (fun ctxArgs0 =>
  (varargsStep sub env ctxArgs0).bind (fun ctxArgs =>
  (varkwStep sub env).bind (fun base =>
  (parseKwonly env sub.kwonlydefaults sub.kwonlyargs base).bind (fun ctxKwargs =>
  Except.ok (ctxArgs, ctxKwargs)))))

/-- Embedding of `proxy_function(subfunc, superfunc, mapping, /, *args,
**kwargs)` from `src/function_proxy.py`: bind the call against the
super-callable's shape with `getcallargs` (a `TypeError` there propagates as
`bindingError`), update the bound dict with the mapping when the mapping is
non-empty (line 36: `if mapping:`), then remap for the sub-callable's
shape. -/
def proxy_function (subfunc superfunc : FullArgSpec) (mapping : AList)
    (args : List Value) (kwargs : List (String × Value)) :
    Except ProxyError (List Value × AList) :=
  match getcallargs superfunc args kwargs with
  | Except.error e => Except.error (ProxyError.bindingError e)
  | Except.ok bound =>
    let env := if mapping.isEmpty then bound else pyUpdate bound mapping
    remapCore subfunc env

/-! ## Concrete shapes used by the claim theorems -/

/-- `subfunc = lambda y, x: ...` from the source's docstring. -/
def subYX : FullArgSpec :=
  ⟨["y", "x"], Option.none, Option.none, Option.none, [], Option.none⟩

/-- `superfunc = lambda x, y, z, **kwargs: ...` from the source's docstring. -/
def supXYZkw : FullArgSpec :=
  ⟨["x", "y", "z"], Option.none, Option.some "kwargs", Option.none, [], Option.none⟩

/-- A super-callable with no parameters at all. -/
def supNoParams : FullArgSpec :=
  ⟨[], Option.none, Option.none, Option.none, [], Option.none⟩

/-- `def subfunc(a=1, b=2)`: two defaulted positional parameters. -/
def subDefaultsAB : FullArgSpec :=
  ⟨["a", "b"], Option.none, Option.none,
    Option.some [Value.int 1, Value.int 2], [], Option.none⟩

/-- `def subfunc(*, k)`: one keyword-only parameter and no keyword-only
defaults, for which `getfullargspec` reports `kwonlydefaults = None`. -/
def subKwonlyK : FullArgSpec :=
  ⟨[], Option.none, Option.none, Option.none, ["k"], Option.none⟩

/-- `def subfunc(a=1, b=2, c=3)`. -/
def subDefaultsABC : FullArgSpec :=
  ⟨["a", "b", "c"], Option.none, Option.none,
    Option.some [Value.int 1, Value.int 2, Value.int 3], [], Option.none⟩

/-- `def subfunc(b=2, a=1, c=3)`: the same parameters as `subDefaultsABC`,
re-declared in a different order, each keeping its own default. -/
def subDefaultsBAC : FullArgSpec :=
  ⟨["b", "a", "c"], Option.none, Option.none,
    Option.some [Value.int 2, Value.int 1, Value.int 3], [], Option.none⟩

/-- `def f(x)`: one required positional parameter. -/
def shapeX : FullArgSpec :=
  ⟨["x"], Option.none, Option.none, Option.none, [], Option.none⟩

/-- `def f(a)`: one required positional parameter named `a`. -/
def shapeA : FullArgSpec :=
  ⟨["a"], Option.none, Option.none, Option.none, [], Option.none⟩

/-- `def f(*rest)`: only a rest-positional collector. -/
def subRestOnly : FullArgSpec :=
  ⟨[], Option.some "rest", Option.none, Option.none, [], Option.none⟩

/-- `def f(x, *rest)`: one positional parameter and a rest-positional
collector, used as both sub- and super-shape. -/
def shapeXRest : FullArgSpec :=
  ⟨["x"], Option.some "rest", Option.none, Option.none, [], Option.none⟩

/-- `def f(*, k=9, **kw)`: a rest-keyword collector together with a defaulted
keyword-only parameter of a name that will also occur inside the collected
rest-keyword dict. -/
def subKwMergeK : FullArgSpec :=
  ⟨[], Option.none, Option.some "kw", Option.none, ["k"],
    Option.some [("k", Value.int 9)]⟩

/-- `def f(**kw)`: only a rest-keyword collector. -/
def supKwOnly : FullArgSpec :=
  ⟨[], Option.none, Option.some "kw", Option.none, [], Option.none⟩

/-! ## Helper lemmas: `Except` inversion -/

theorem exceptBind_ok {ε α β : Type} {x : Except ε α} {f : α → Except ε β}
    {b : β} (h : x.bind f = Except.ok b) :
    ∃ a, x = Except.ok a ∧ f a = Except.ok b := by
  cases x with
  | error e => exact Except.noConfusion h
  | ok a => exact ⟨a, rfl, h⟩

theorem exceptMap_ok {ε α β : Type} {f : α → β} {x : Except ε α} {b : β}
    (h : x.map f = Except.ok b) : ∃ a, x = Except.ok a ∧ b = f a := by
  cases x with
  | error e => exact Except.noConfusion h
  | ok a => exact ⟨a, rfl, (Except.ok.inj h).symm⟩

theorem iteError_ok {ε α : Type} {c : Prop} [Decidable c] {e : ε}
    {x : Except ε α} {b : α}
    (h : (if c then Except.error e else x) = Except.ok b) :
    ¬c ∧ x = Except.ok b := by
  by_cases hc : c
  · rw [if_pos hc] at h; exact Except.noConfusion h
  · rw [if_neg hc] at h; exact ⟨hc, h⟩

/-! ## Helper lemmas: association lists -/

theorem alistLookup_cons (a : String) (w : Value) (rest : AList) (k : String) :
    alistLookup ((a, w) :: rest) k
      = if a = k then Option.some w else alistLookup rest k := rfl

theorem alistLookup_append_none {l1 : AList} {k : String} (l2 : AList)
    (h : alistLookup l1 k = Option.none) :
    alistLookup (l1 ++ l2) k = alistLookup l2 k := by
  induction l1 with
  | nil => rfl
  | cons p rest ih =>
    obtain ⟨a, w⟩ := p
    rw [alistLookup_cons] at h
    by_cases hak : a = k
    · rw [if_pos hak] at h; exact Option.noConfusion h
    · rw [if_neg hak] at h
      rw [List.cons_append, alistLookup_cons, if_neg hak]
      exact ih h

theorem alistLookup_append_some {l1 : AList} {k : String} {v : Value}
    (l2 : AList) (h : alistLookup l1 k = Option.some v) :
    alistLookup (l1 ++ l2) k = Option.some v := by
  induction l1 with
  | nil => exact Option.noConfusion h
  | cons p rest ih =>
    obtain ⟨a, w⟩ := p
    rw [alistLookup_cons] at h
    rw [List.cons_append, alistLookup_cons]
    by_cases hak : a = k
    · rwa [if_pos hak] at h ⊢
    · rw [if_neg hak] at h ⊢
      exact ih h

theorem alistLookup_eq_none_of_not_mem {l : AList} {k : String}
    (h : k ∉ l.map Prod.fst) : alistLookup l k = Option.none := by
  induction l with
  | nil => rfl
  | cons p rest ih =>
    obtain ⟨a, w⟩ := p
    simp only [List.map_cons, List.mem_cons] at h
    push_neg at h
    rw [alistLookup_cons, if_neg (fun hh => h.1 hh.symm)]
    exact ih h.2

theorem alistLookup_insert (l : AList) (k k' : String) (v : Value) :
    alistLookup (alistInsert l k v) k'
      = if k = k' then Option.some v else alistLookup l k' := by
  induction l with
  | nil => rfl
  | cons p rest ih =>
    obtain ⟨a, w⟩ := p
    by_cases hak : a = k
    · subst hak
      show alistLookup (if a = a then (a, v) :: rest else _) k' = _
      rw [if_pos rfl, alistLookup_cons, alistLookup_cons]
      by_cases h : a = k' <;> simp [h]
    · show alistLookup (if a = k then _ else (a, w) :: alistInsert rest k v) k' = _
      rw [if_neg hak, alistLookup_cons, ih, alistLookup_cons]
      by_cases h : a = k'
      · rw [if_pos h, if_neg (fun hkk => hak (h.trans hkk.symm)), if_pos h]
      · rw [if_neg h]
        by_cases hkk : k = k'
        · rw [if_pos hkk, if_pos hkk]
        · rw [if_neg hkk, if_neg hkk, if_neg h]

theorem pyUpdate_cons (b : AList) (k : String) (v : Value) (rest : AList) :
    pyUpdate b ((k, v) :: rest) = pyUpdate (alistInsert b k v) rest := rfl

theorem pyUpdate_lookup_of_not_mem {upd : AList} {k : String} (b : AList)
    (h : alistLookup upd k = Option.none) :
    alistLookup (pyUpdate b upd) k = alistLookup b k := by
  induction upd generalizing b with
  | nil => rfl
  | cons p rest ih =>
    obtain ⟨a, w⟩ := p
    rw [alistLookup_cons] at h
    by_cases hak : a = k
    · rw [if_pos hak] at h; exact Option.noConfusion h
    · rw [if_neg hak] at h
      rw [pyUpdate_cons, ih _ h, alistLookup_insert, if_neg hak]

theorem pyUpdate_lookup_of_lookup_some {upd : AList} {k : String} {v : Value}
    (b : AList) (hnd : (upd.map Prod.fst).Nodup)
    (h : alistLookup upd k = Option.some v) :
    alistLookup (pyUpdate b upd) k = Option.some v := by
  induction upd generalizing b with
  | nil => exact Option.noConfusion h
  | cons p rest ih =>
    obtain ⟨a, w⟩ := p
    simp only [List.map_cons, List.nodup_cons] at hnd
    rw [alistLookup_cons] at h
    by_cases hak : a = k
    · rw [if_pos hak] at h
      subst hak
      rw [pyUpdate_cons,
        pyUpdate_lookup_of_not_mem _ (alistLookup_eq_none_of_not_mem hnd.1),
        alistLookup_insert, if_pos rfl]
      exact h
    · rw [if_neg hak] at h
      rw [pyUpdate_cons]
      exact ih _ hnd.2 h

theorem zip_lookup_eq_none {names : List String} {k : String}
    (vals : List Value) (h : k ∉ names) :
    alistLookup (List.zip names vals) k = Option.none := by
  induction names generalizing vals with
  | nil => rfl
  | cons a rest ih =>
    cases vals with
    | nil => rfl
    | cons v vrest =>
      simp only [List.mem_cons] at h
      push_neg at h
      rw [List.zip_cons_cons, alistLookup_cons, if_neg (fun hh => h.1 hh.symm)]
      exact ih vrest h.2

/-! ## Helper lemmas: the positional-argument loop (lines 41-51) -/

theorem parsePosAux_cons_inv {ds : List Value} {env : AList} {a : String}
    {rest : List String} {dnum : Nat} {out : List Value}
    (h : parsePosAux ds env (a :: rest) dnum = Except.ok out) :
    ∃ v o, parsePosAux ds env rest (dnum - 1) = Except.ok o ∧ out = v :: o
      ∧ (alistLookup env a = Option.some v
         ∨ (alistLookup env a = Option.none ∧ dnum < ds.length
            ∧ v = ds.getD dnum Value.none)) := by
  cases hl : alistLookup env a with
  | some v =>
    rw [parsePosAux, hl] at h
    have h' : (parsePosAux ds env rest (dnum - 1)).map (fun o => v :: o)
        = Except.ok out := h
    obtain ⟨o, ho, hout⟩ := exceptMap_ok h'
    exact ⟨v, o, ho, hout, Or.inl rfl⟩
  | none =>
    rw [parsePosAux, hl] at h
    have h' : (if dnum < ds.length then
          (parsePosAux ds env rest (dnum - 1)).map
            (fun o => ds.getD dnum Value.none :: o)
        else Except.error (ProxyError.missingPositional a)) = Except.ok out := h
    by_cases hd : dnum < ds.length
    · rw [if_pos hd] at h'
      obtain ⟨o, ho, hout⟩ := exceptMap_ok h'
      exact ⟨ds.getD dnum Value.none, o, ho, hout, Or.inr ⟨rfl, hd, rfl⟩⟩
    · rw [if_neg hd] at h'
      exact Except.noConfusion h'

theorem parsePosAux_ok_length {ds : List Value} {env : AList} :
    ∀ {names : List String} {dnum : Nat} {out : List Value},
      parsePosAux ds env names dnum = Except.ok out →
      out.length = names.length := by
  intro names
  induction names with
  | nil =>
    intro dnum out h
    have h' : ([] : List Value) = out := Except.ok.inj h
    rw [← h']
    rfl
  | cons a rest ih =>
    intro dnum out h
    obtain ⟨v, o, ho, rfl, _⟩ := parsePosAux_cons_inv h
    simp only [List.length_cons, ih ho]

theorem parsePosAux_ok_get {ds : List Value} {env : AList} {n : String}
    {v : Value} (hv : alistLookup env n = Option.some v) :
    ∀ {names : List String} {dnum : Nat} {out : List Value},
      parsePosAux ds env names dnum = Except.ok out →
      ∀ {i : Nat} (hi : i < names.length), names.get ⟨i, hi⟩ = n →
      out[i]? = Option.some v := by
  intro names
  induction names with
  | nil => intro dnum out h i hi; exact absurd hi (Nat.not_lt_zero i)
  | cons a rest ih =>
    intro dnum out h i hi hn
    obtain ⟨w, o, ho, rfl, hcase⟩ := parsePosAux_cons_inv h
    cases i with
    | zero =>
      have ha : a = n := hn
      subst ha
      rcases hcase with hw | ⟨hnone, _, _⟩
      · rw [hv] at hw
        rw [Option.some.inj hw]
        simp
      · rw [hv] at hnone
        exact Option.noConfusion hnone
    | succ j =>
      have hj : j < rest.length := Nat.lt_of_succ_lt_succ hi
      have : o[j]? = Option.some v := ih ho hj hn
      simpa using this

theorem parsePosAux_congr {env env' : AList} :
    ∀ {names : List String},
      (∀ a ∈ names, alistLookup env a = alistLookup env' a) →
      ∀ (ds : List Value) (dnum : Nat),
      parsePosAux ds env names dnum = parsePosAux ds env' names dnum := by
  intro names
  induction names with
  | nil => intro _ ds dnum; rfl
  | cons a rest ih =>
    intro hagree ds dnum
    simp only [parsePosAux, hagree a (List.mem_cons_self a rest),
      ih (fun b hb => hagree b (List.mem_cons_of_mem a hb)) ds (dnum - 1)]

/-! ## Helper lemmas: the keyword-only loop (lines 63-69) -/

theorem parseKwonly_ok_lookup_not_mem {env : AList} {kd : Option AList} :
    ∀ {ks : List String} {acc out : AList},
      parseKwonly env kd ks acc = Except.ok out →
      ∀ {k : String}, k ∉ ks → alistLookup out k = alistLookup acc k := by
  intro ks
  induction ks with
  | nil =>
    intro acc out h k _
    rw [Except.ok.inj h]
  | cons k' rest ih =>
    intro acc out h k hk
    have hk' : k' ≠ k := fun hh => hk (hh ▸ List.mem_cons_self k' rest)
    have hkrest : k ∉ rest := fun hh => hk (List.mem_cons_of_mem k' hh)
    cases hl : alistLookup env k' with
    | some v =>
      simp only [parseKwonly, hl] at h
      rw [ih h hkrest, alistLookup_insert, if_neg hk']
    | none =>
      cases kd with
      | none =>
        simp only [parseKwonly, hl] at h
        exact Except.noConfusion h
      | some kdl =>
        cases hdl : alistLookup kdl k' with
        | some d =>
          simp only [parseKwonly, hl, hdl] at h
          rw [ih h hkrest, alistLookup_insert, if_neg hk']
        | none =>
          simp only [parseKwonly, hl, hdl] at h
          exact Except.noConfusion h

theorem parseKwonly_ok_lookup_mem {env : AList} {kd : Option AList} :
    ∀ {ks : List String} {acc out : AList},
      parseKwonly env kd ks acc = Except.ok out →
      ∀ {k : String}, k ∈ ks →
      (∃ v, alistLookup env k = Option.some v
        ∧ alistLookup out k = Option.some v)
      ∨ (alistLookup env k = Option.none ∧ ∃ kdl d, kd = Option.some kdl
          ∧ alistLookup kdl k = Option.some d
          ∧ alistLookup out k = Option.some d) := by
  intro ks
  induction ks with
  | nil => intro acc out _ k hk; exact absurd hk (List.not_mem_nil k)
  | cons k' rest ih =>
    intro acc out h k hk
    by_cases hkrest : k ∈ rest
    · -- resolved (again) by a later iteration; defer to the tail
      cases hl : alistLookup env k' with
      | some v =>
        simp only [parseKwonly, hl] at h
        exact ih h hkrest
      | none =>
        cases kd with
        | none =>
          simp only [parseKwonly, hl] at h
          exact Except.noConfusion h
        | some kdl =>
          cases hdl : alistLookup kdl k' with
          | some d =>
            simp only [parseKwonly, hl, hdl] at h
            exact ih h hkrest
          | none =>
            simp only [parseKwonly, hl, hdl] at h
            exact Except.noConfusion h
    · have hk' : k' = k := by
        rcases List.mem_cons.mp hk with hh | hh
        · exact hh.symm
        · exact absurd hh hkrest
      subst hk'
      cases hl : alistLookup env k' with
      | some v =>
        simp only [parseKwonly, hl] at h
        have := parseKwonly_ok_lookup_not_mem h hkrest
        rw [alistLookup_insert, if_pos rfl] at this
        exact Or.inl ⟨v, rfl, this⟩
      | none =>
        cases kd with
        | none =>
          simp only [parseKwonly, hl] at h
          exact Except.noConfusion h
        | some kdl =>
          cases hdl : alistLookup kdl k' with
          | some d =>
            simp only [parseKwonly, hl, hdl] at h
            have := parseKwonly_ok_lookup_not_mem h hkrest
            rw [alistLookup_insert, if_pos rfl] at this
            exact Or.inr ⟨rfl, kdl, d, rfl, hdl, this⟩
          | none =>
            simp only [parseKwonly, hl, hdl] at h
            exact Except.noConfusion h

theorem parseKwonly_congr {env env' : AList} {kd : Option AList} :
    ∀ {ks : List String},
      (∀ k ∈ ks, alistLookup env k = alistLookup env' k) →
      ∀ (acc : AList), parseKwonly env kd ks acc = parseKwonly env' kd ks acc := by
  intro ks
  induction ks with
  | nil => intro _ acc; rfl
  | cons k' rest ih =>
    intro hagree acc
    have hk' := hagree k' (List.mem_cons_self k' rest)
    cases hl : alistLookup env' k' with
    | some v =>
      simp only [parseKwonly, hk', hl]
      exact ih (fun b hb => hagree b (List.mem_cons_of_mem k' hb)) _
    | none =>
      cases kd with
      | none => simp only [parseKwonly, hk', hl]
      | some kdl =>
        cases hdl : alistLookup kdl k' with
        | some d =>
          simp only [parseKwonly, hk', hl, hdl]
          exact ih (fun b hb => hagree b (List.mem_cons_of_mem k' hb)) _
        | none => simp only [parseKwonly, hk', hl, hdl]

/-! ## Helper lemmas: the rest-collector steps and `remapCore` -/

theorem varargsStep_lookup_list {sub : FullArgSpec} {env : AList} {r : String}
    {vs : List Value} (h0 : sub.varargs = Option.some r)
    (hl : alistLookup env r = Option.some (Value.list vs)) (c : List Value) :
    varargsStep sub env c = Except.ok (c ++ vs) := by
  simp only [varargsStep, h0, hl]

theorem varargsStep_lookup_none {sub : FullArgSpec} {env : AList} {r : String}
    (h0 : sub.varargs = Option.some r)
    (hl : alistLookup env r = Option.none) (c : List Value) :
    varargsStep sub env c = Except.ok c := by
  simp only [varargsStep, h0, hl]

theorem varkwStep_lookup_dict {sub : FullArgSpec} {env : AList} {w : String}
    {es : AList} (h0 : sub.varkw = Option.some w)
    (hl : alistLookup env w = Option.some (Value.dict es)) :
    varkwStep sub env = Except.ok es := by
  simp only [varkwStep, h0, hl]

theorem remapCore_ok_inv {sub : FullArgSpec} {env : AList} {ps : List Value}
    {ks : AList} (h : remapCore sub env = Except.ok (ps, ks)) :
    ∃ core base,
      parsePosAux (sub.defaults.getD []) env sub.args (sub.args.length - 1)
        = Except.ok core
      ∧ varargsStep sub env core = Except.ok ps
      ∧ varkwStep sub env = Except.ok base
      ∧ parseKwonly env sub.kwonlydefaults sub.kwonlyargs base
          = Except.ok ks := by
  unfold remapCore at h
  obtain ⟨core, hp, h⟩ := exceptBind_ok h
  obtain ⟨ctxArgs, hv, h⟩ := exceptBind_ok h
  obtain ⟨base, hk, h⟩ := exceptBind_ok h
  obtain ⟨ctxKwargs, hko, h⟩ := exceptBind_ok h
  obtain ⟨h1, h2⟩ := Prod.mk.injEq .. ▸ Except.ok.inj h
  exact ⟨core, base, hp, h1 ▸ hv, hk, h2 ▸ hko⟩

theorem remapCore_congr {sub : FullArgSpec} {env env' : AList}
    (hargs : ∀ a ∈ sub.args, alistLookup env a = alistLookup env' a)
    (hva : ∀ r, sub.varargs = Option.some r →
      alistLookup env r = alistLookup env' r)
    (hvk : ∀ r, sub.varkw = Option.some r →
      alistLookup env r = alistLookup env' r)
    (hko : ∀ k ∈ sub.kwonlyargs, alistLookup env k = alistLookup env' k) :
    remapCore sub env = remapCore sub env' := by
  unfold remapCore
  rw [parsePosAux_congr hargs]
  have hva' : varargsStep sub env = varargsStep sub env' := by
    funext c
    cases h0 : sub.varargs with
    | none => simp only [varargsStep, h0]
    | some r => simp only [varargsStep, h0, hva r h0]
  have hvk' : varkwStep sub env = varkwStep sub env' := by
    cases h0 : sub.varkw with
    | none => simp only [varkwStep, h0]
    | some r => simp only [varkwStep, h0, hvk r h0]
  rw [hva', hvk']
  have hko' : parseKwonly env sub.kwonlydefaults sub.kwonlyargs
      = parseKwonly env' sub.kwonlydefaults sub.kwonlyargs := by
    funext acc
    exact parseKwonly_congr hko acc
  rw [hko']

/-! ## Helper lemmas: `proxy_function` and `getcallargs` -/

theorem proxy_function_eq (subfunc superfunc : FullArgSpec) (mapping : AList)
    (args : List Value) (kwargs : List (String × Value)) :
    proxy_function subfunc superfunc mapping args kwargs
      = match getcallargs superfunc args kwargs with
        | Except.error e => Except.error (ProxyError.bindingError e)
        | Except.ok bound => remapCore subfunc (pyUpdate bound mapping) := by
  unfold proxy_function
  cases getcallargs superfunc args kwargs with
  | error e => rfl
  | ok bound =>
    cases mapping with
    | nil => rfl
    | cons p rest => rfl

theorem proxy_function_ok_inv {subfunc superfunc : FullArgSpec}
    {mapping : AList} {args : List Value} {kwargs : List (String × Value)}
    {out : List Value × AList}
    (h : proxy_function subfunc superfunc mapping args kwargs = Except.ok out) :
    ∃ B, getcallargs superfunc args kwargs = Except.ok B
      ∧ remapCore subfunc (pyUpdate B mapping) = Except.ok out := by
  rw [proxy_function_eq] at h
  cases hg : getcallargs superfunc args kwargs with
  | error e =>
    rw [hg] at h
    exact Except.noConfusion h
  | ok B =>
    rw [hg] at h
    exact ⟨B, rfl, h⟩

/-! ## Helper lemmas: binding and the update map -/

theorem alistLookup_append_single_ne {kw k : String} (acc : AList) (v : Value)
    (hne : kw ≠ k) : alistLookup (acc ++ [(kw, v)]) k = alistLookup acc k := by
  cases hl : alistLookup acc k with
  | some w => exact alistLookup_append_some _ hl
  | none =>
    rw [alistLookup_append_none _ hl, alistLookup_cons, if_neg hne]
    rfl

theorem bindNamed_ok_lookup_not_possible {possible : List String} {hv : Bool} :
    ∀ {named : List (String × Value)} {acc extra assigned ex : AList},
      bindNamed possible hv named acc extra = Except.ok (assigned, ex) →
      ∀ {k : String}, k ∉ possible →
      alistLookup assigned k = alistLookup acc k := by
  intro named
  induction named with
  | nil =>
    intro acc extra assigned ex h k _
    have h' : acc = assigned := congrArg Prod.fst (Except.ok.inj h)
    rw [h']
  | cons p rest ih =>
    intro acc extra assigned ex h k hk
    obtain ⟨kw, v⟩ := p
    by_cases hkw : kw ∈ possible
    · have hne : kw ≠ k := fun hh => hk (hh ▸ hkw)
      by_cases hsome : (alistLookup acc kw).isSome
      · simp [bindNamed, hkw, hsome] at h
      · simp [bindNamed, hkw, hsome] at h
        rw [ih h hk, alistLookup_append_single_ne _ _ hne]
    · cases hv with
      | true =>
        simp [bindNamed, hkw] at h
        exact ih h hk
      | false =>
        simp [bindNamed, hkw] at h

theorem pyUpdate_append (b l1 l2 : AList) :
    pyUpdate b (l1 ++ l2) = pyUpdate (pyUpdate b l1) l2 :=
  List.foldl_append _ _ _ _

theorem pyUpdate_lookup_congr {n : String} :
    ∀ (l : AList) {x y : AList},
      (∀ m, m ≠ n → alistLookup x m = alistLookup y m) →
      ∀ (m : String), m ≠ n →
      alistLookup (pyUpdate x l) m = alistLookup (pyUpdate y l) m := by
  intro l
  induction l with
  | nil => intro x y hxy m hm; exact hxy m hm
  | cons p rest ih =>
    intro x y hxy m hm
    rw [pyUpdate_cons, pyUpdate_cons]
    refine ih (fun m' hm' => ?_) m hm
    rw [alistLookup_insert, alistLookup_insert]
    by_cases hp : p.1 = m'
    · rw [if_pos hp, if_pos hp]
    · rw [if_neg hp, if_neg hp]
      exact hxy m' hm'

theorem lookup_update_drop_middle (B m1 m2 : AList) (n : String) (v : Value)
    {m : String} (hm : m ≠ n) :
    alistLookup (pyUpdate B (m1 ++ (n, v) :: m2)) m
      = alistLookup (pyUpdate B (m1 ++ m2)) m := by
  rw [pyUpdate_append, pyUpdate_append, pyUpdate_cons]
  exact pyUpdate_lookup_congr m2
    (fun m' hm' => by
      rw [alistLookup_insert, if_neg (fun hh => hm' hh.symm)]) m hm

/-- The rest-positional entry of a successful `getcallargs` binding: when the
super-shape declares a rest-positional collector `r` (and, as Python
guarantees, `r` is not also a declared parameter name), the bound-argument
dict maps `r` to the tuple of leftover positional values, in order. -/
theorem getcallargs_ok_varargs_lookup {sup : FullArgSpec} {pos : List Value}
    {named : List (String × Value)} {B : AList} {r : String}
    (hva : sup.varargs = Option.some r)
    (hr1 : r ∉ sup.args) (hr2 : r ∉ sup.kwonlyargs)
    (h : getcallargs sup pos named = Except.ok B) :
    alistLookup B r
      = Option.some (Value.list
          (pos.drop (min pos.length sup.args.length))) := by
  simp only [getcallargs] at h
  obtain ⟨pr, hbn, h⟩ := exceptBind_ok h
  obtain ⟨_, h⟩ := iteError_ok h
  obtain ⟨_, h⟩ := iteError_ok h
  obtain ⟨_, h⟩ := iteError_ok h
  have hassigned : alistLookup pr.1 r = Option.none := by
    have hpairs : alistLookup
        (List.zip (sup.args.take (min pos.length sup.args.length)) pos) r
        = Option.none :=
      zip_lookup_eq_none pos (fun hmem => hr1 (List.take_subset _ _ hmem))
    have hposs : r ∉ sup.args ++ sup.kwonlyargs := by
      rw [List.mem_append]
      rintro (hh | hh)
      · exact hr1 hh
      · exact hr2 hh
    rw [bindNamed_ok_lookup_not_possible hbn hposs, hpairs]
  simp only [hva] at h
  rw [← Except.ok.inj h]
  have h1 : alistLookup
      (pr.1 ++ [(r, Value.list (pos.drop (min pos.length sup.args.length)))]) r
      = Option.some (Value.list (pos.drop (min pos.length sup.args.length))) := by
    rw [alistLookup_append_none _ hassigned, alistLookup_cons, if_pos rfl]
  exact alistLookup_append_some _
    (alistLookup_append_some _ (alistLookup_append_some _ h1))

/-! ## Helper lemmas: inversion of the rest-collector steps -/

theorem varargsStep_ok_some_inv {sub : FullArgSpec} {env : AList} {r : String}
    {v : Value} {c ps : List Value} (h0 : sub.varargs = Option.some r)
    (hl : alistLookup env r = Option.some v)
    (h : varargsStep sub env c = Except.ok ps) :
    ∃ vs, v = Value.list vs ∧ ps = c ++ vs := by
  cases v with
  | list vs =>
    simp only [varargsStep, h0, hl] at h
    exact ⟨vs, rfl, (Except.ok.inj h).symm⟩
  | none => simp only [varargsStep, h0, hl] at h; exact Except.noConfusion h
  | int _ => simp only [varargsStep, h0, hl] at h; exact Except.noConfusion h
  | str _ => simp only [varargsStep, h0, hl] at h; exact Except.noConfusion h
  | dict _ => simp only [varargsStep, h0, hl] at h; exact Except.noConfusion h

theorem varargsStep_ok_prefix {sub : FullArgSpec} {env : AList}
    {c ps : List Value} (h : varargsStep sub env c = Except.ok ps) :
    ∃ tail, ps = c ++ tail := by
  cases h0 : sub.varargs with
  | none =>
    simp only [varargsStep, h0] at h
    exact ⟨[], by rw [← Except.ok.inj h, List.append_nil]⟩
  | some r =>
    cases hl : alistLookup env r with
    | none =>
      simp only [varargsStep, h0, hl] at h
      exact ⟨[], by rw [← Except.ok.inj h, List.append_nil]⟩
    | some v =>
      obtain ⟨vs, _, hps⟩ := varargsStep_ok_some_inv h0 hl h
      exact ⟨vs, hps⟩

theorem varkwStep_ok_some_inv {sub : FullArgSpec} {env : AList} {w : String}
    {v : Value} {base : AList} (h0 : sub.varkw = Option.some w)
    (hl : alistLookup env w = Option.some v)
    (h : varkwStep sub env = Except.ok base) :
    ∃ es, v = Value.dict es ∧ base = es := by
  cases v with
  | dict es =>
    simp only [varkwStep, h0, hl] at h
    exact ⟨es, rfl, (Except.ok.inj h).symm⟩
  | none => simp only [varkwStep, h0, hl] at h; exact Except.noConfusion h
  | int _ => simp only [varkwStep, h0, hl] at h; exact Except.noConfusion h
  | str _ => simp only [varkwStep, h0, hl] at h; exact Except.noConfusion h
  | list _ => simp only [varkwStep, h0, hl] at h; exact Except.noConfusion h

theorem remapCore_varargs_absent {sub : FullArgSpec} {env : AList} {r : String}
    (hva : sub.varargs = Option.some r)
    (henv : alistLookup env r = Option.none) :
    remapCore sub env = remapCore { sub with varargs := Option.none } env := by
  unfold remapCore
  have h1 : varargsStep sub env
      = varargsStep { sub with varargs := Option.none } env := by
    funext c
    rw [varargsStep_lookup_none hva henv]
    rfl
  rw [h1]
  rfl

/-! ## Claim theorems: concrete scenarios -/

/-- C1: for `subfunc(y, x)`, `superfunc(x, y, z, **kwargs)`, overrides
`{x: 1}`, and the call `superfunc(15, 18, 22, something='something else')`,
`proxy_function` returns the positional tuple `(18, 1)` and an empty
named-value mapping. -/
theorem proxy_concrete_scenario :
    proxy_function subYX supXYZkw [("x", Value.int 1)]
      [Value.int 15, Value.int 18, Value.int 22]
      [("something", Value.str "something else")]
      = Except.ok ([Value.int 18, Value.int 1], []) := rfl

/-- C2 (code bug): for `subfunc(a=1, b=2)` and a super-call that binds
neither `a` nor `b`, the code returns the positional tuple `(2, 1)` - each
parameter receives the *other* parameter's default, because line 49 indexes
the defaults tuple with the countdown index `default_num` instead of the
parameter's own default position. The claim (each parameter gets its own
declared default, i.e. `(1, 2)`) fails here. -/
theorem proxy_reversed_defaults_bug :
    proxy_function subDefaultsAB supNoParams [] [] []
      = Except.ok ([Value.int 2, Value.int 1], [])
    ∧ ([Value.int 2, Value.int 1] : List Value) ≠ [Value.int 1, Value.int 2] :=
  ⟨rfl, by simp⟩

/-- C3 (code bug): for `subfunc(*, k)` - a sub-shape with a required
keyword-only parameter and no keyword-only defaults, so `getfullargspec`
reports `kwonlydefaults = None` - and a super-call that does not bind `k`,
line 66 evaluates `'k' in None` and the code dies with `TypeError` instead of
reaching the `ValueError` of line 69 that would name the parameter. -/
theorem proxy_kwonly_none_crash_bug :
    proxy_function subKwonlyK supNoParams [] [] []
      = Except.error ProxyError.typeErrorNoneMembership
    ∧ ProxyError.typeErrorNoneMembership ≠ ProxyError.missingKeyword "k" :=
  ⟨rfl, by decide⟩

/-- C7 (code bug): permuting the declared parameter order of the sub-shape
while every parameter keeps its own default changes the name-to-value
associations of the output. With `subfunc(a=1, b=2, c=3)` and an empty
super-call, the output is `(3, 2, 1)` (so `b ↦ 2`, at index 1); after
re-declaring the same parameters as `subfunc(b=2, a=1, c=3)` the output is
`(3, 1, 2)` (so `b ↦ 3`, at index 0). The claim (same name-to-value
associations, merely reordered) fails; the root cause is the reversed
defaults indexing of line 49. -/
theorem proxy_reorder_changes_defaults_bug :
    proxy_function subDefaultsABC supNoParams [] [] []
      = Except.ok ([Value.int 3, Value.int 2, Value.int 1], [])
    ∧ proxy_function subDefaultsBAC supNoParams [] [] []
      = Except.ok ([Value.int 3, Value.int 1, Value.int 2], [])
    ∧ ([Value.int 3, Value.int 2, Value.int 1] : List Value)[1]?
        ≠ ([Value.int 3, Value.int 1, Value.int 2] : List Value)[0]? :=
  ⟨rfl, rfl, by simp⟩

/-! ## Claim theorems: general properties -/

/-- C4: for every parameter name `n` present in both the bound-argument set
produced by `getcallargs` and in the overrides mapping, every occurrence of
`n`'s value in the output is the override value: each positional slot declared
under the name `n`, the keyword-only entry for `n`, a rest-positional
collector named `n` (its values form the tail of the positional output), and
a rest-keyword collector named `n` (its entries are the named output wherever
the keyword-only loop does not overwrite them). -/
theorem overrides_always_win
    (sub sup : FullArgSpec) (mapping : AList) (args : List Value)
    (kwargs : List (String × Value)) (B : AList) (n : String) (v : Value)
    (ps : List Value) (ks : AList)
    (hB : getcallargs sup args kwargs = Except.ok B)
    (hnd : (mapping.map Prod.fst).Nodup)
    (hm : alistLookup mapping n = Option.some v)
    (hbound : (alistLookup B n).isSome)
    (hrun : proxy_function sub sup mapping args kwargs = Except.ok (ps, ks)) :
    (∀ (i : Nat) (hi : i < sub.args.length),
        sub.args.get ⟨i, hi⟩ = n → ps[i]? = Option.some v)
    ∧ (n ∈ sub.kwonlyargs → alistLookup ks n = Option.some v)
    ∧ (sub.varargs = Option.some n →
        ∃ vs, v = Value.list vs ∧ ps.drop sub.args.length = vs)
    ∧ (sub.varkw = Option.some n →
        ∃ es, v = Value.dict es ∧
          ∀ m, m ∉ sub.kwonlyargs → alistLookup ks m = alistLookup es m) := by
  obtain ⟨B', hB', hcore⟩ := proxy_function_ok_inv hrun
  rw [hB] at hB'
  cases Except.ok.inj hB'
  have henv : alistLookup (pyUpdate B mapping) n = Option.some v :=
    pyUpdate_lookup_of_lookup_some B hnd hm
  obtain ⟨core, base, hp, hv, hkstep, hko⟩ := remapCore_ok_inv hcore
  have hlen : core.length = sub.args.length := parsePosAux_ok_length hp
  obtain ⟨tail, rfl⟩ := varargsStep_ok_prefix hv
  refine ⟨?_, ?_, ?_, ?_⟩
  · intro i hi hn
    rw [List.getElem?_append_left (hlen.symm ▸ hi)]
    exact parsePosAux_ok_get henv hp hi hn
  · intro hkn
    rcases parseKwonly_ok_lookup_mem hko hkn with ⟨w, hw, hout⟩ | ⟨hnone, _⟩
    · rw [henv] at hw
      rw [hout]
      exact congrArg Option.some (Option.some.inj hw).symm
    · rw [henv] at hnone
      exact Option.noConfusion hnone
  · intro hva
    obtain ⟨vs, hvv, hps⟩ := varargsStep_ok_some_inv hva henv hv
    refine ⟨vs, hvv, ?_⟩
    rw [hps, ← hlen, List.drop_left]
  · intro hvk
    obtain ⟨es, hvv, hbase⟩ := varkwStep_ok_some_inv hvk henv hkstep
    refine ⟨es, hvv, fun m hm' => ?_⟩
    rw [parseKwonly_ok_lookup_not_mem hko hm', hbase]

/-- Witness for C4 at `sub = sup = shapeX`, overrides `{x: 1}`, call `(5)`:
the bound value 5 loses against the override 1 in every output position. -/
theorem overrides_always_win_witness :
    (∀ (i : Nat) (hi : i < shapeX.args.length),
        shapeX.args.get ⟨i, hi⟩ = "x"
          → ([Value.int 1] : List Value)[i]? = Option.some (Value.int 1))
    ∧ ("x" ∈ shapeX.kwonlyargs
        → alistLookup [] "x" = Option.some (Value.int 1))
    ∧ (shapeX.varargs = Option.some "x" →
        ∃ vs, Value.int 1 = Value.list vs
          ∧ ([Value.int 1] : List Value).drop shapeX.args.length = vs)
    ∧ (shapeX.varkw = Option.some "x" →
        ∃ es, Value.int 1 = Value.dict es ∧
          ∀ m, m ∉ shapeX.kwonlyargs
            → alistLookup [] m = alistLookup es m) :=
  overrides_always_win shapeX shapeX [("x", Value.int 1)] [Value.int 5] []
    [("x", Value.int 5)] "x" (Value.int 1) [Value.int 1] []
    rfl (by simp) rfl rfl rfl

/-- C5: when `getcallargs` cannot bind the call against the super-callable's
declared shape, `proxy_function` fails with that binding error, for every
sub-shape and every overrides mapping: the failure happens on line 35, before
the mapping is consulted, so overrides cannot prevent it. -/
theorem binding_failure_before_remap
    (sub sup : FullArgSpec) (mapping : AList) (args : List Value)
    (kwargs : List (String × Value)) (e : String)
    (h : getcallargs sup args kwargs = Except.error e) :
    proxy_function sub sup mapping args kwargs
      = Except.error (ProxyError.bindingError e) := by
  rw [proxy_function_eq, h]

/-- Witness for C5: `superfunc(a)` called with no arguments fails to bind,
and an overrides entry supplying `a` does not rescue the call. -/
theorem binding_failure_before_remap_witness :
    proxy_function subYX shapeA [("a", Value.int 1)] [] []
      = Except.error (ProxyError.bindingError
          "missing required positional arguments: a") :=
  binding_failure_before_remap subYX shapeA [("a", Value.int 1)] [] []
    "missing required positional arguments: a" rfl

/-- C6: (1) when the super-callable declares a rest-positional collector `r`
(distinct from its named parameters, as Python guarantees), the sub-shape
declares a rest-positional collector of the same name, and the overrides do
not touch `r`, the leftover positional values of the call appear in their
original order at the tail of the output positional sequence, after the
`sub.args.length` values of the named positional parameters; (2) when the
sub-shape's rest-positional name is absent from the (override-updated)
bound-argument set, `proxy_function` behaves exactly as if the sub-shape had
no rest-positional collector: it contributes nothing and raises no error. -/
theorem rest_positional_passthrough
    (sub sup : FullArgSpec) (mapping : AList) (args : List Value)
    (kwargs : List (String × Value)) (r : String) (B : AList)
    (ps : List Value) (ks : AList) :
    (sup.varargs = Option.some r → r ∉ sup.args → r ∉ sup.kwonlyargs →
      sub.varargs = Option.some r → alistLookup mapping r = Option.none →
      getcallargs sup args kwargs = Except.ok B →
      proxy_function sub sup mapping args kwargs = Except.ok (ps, ks) →
      sub.args.length ≤ ps.length
        ∧ ps.drop sub.args.length
            = args.drop (min args.length sup.args.length))
    ∧ (sub.varargs = Option.some r →
      getcallargs sup args kwargs = Except.ok B →
      alistLookup (pyUpdate B mapping) r = Option.none →
      proxy_function sub sup mapping args kwargs
        = proxy_function { sub with varargs := Option.none } sup mapping args
            kwargs) := by
  constructor
  · intro hsupva hr1 hr2 hsubva hmap hB hrun
    obtain ⟨B', hB', hcore⟩ := proxy_function_ok_inv hrun
    rw [hB] at hB'
    cases Except.ok.inj hB'
    have henv : alistLookup (pyUpdate B mapping) r
        = Option.some (Value.list
            (args.drop (min args.length sup.args.length))) := by
      rw [pyUpdate_lookup_of_not_mem _ hmap]
      exact getcallargs_ok_varargs_lookup hsupva hr1 hr2 hB
    obtain ⟨core, base, hp, hv, hkstep, hko⟩ := remapCore_ok_inv hcore
    have hlen : core.length = sub.args.length := parsePosAux_ok_length hp
    obtain ⟨vs, hvv, hps⟩ := varargsStep_ok_some_inv hsubva henv hv
    have hvs : args.drop (min args.length sup.args.length) = vs :=
      Value.list.inj hvv
    constructor
    · rw [hps, List.length_append, ← hlen]
      exact Nat.le_add_right _ _
    · rw [hps, ← hlen, List.drop_left]
      exact hvs.symm
  · intro hsubva hB henv
    rw [proxy_function_eq, proxy_function_eq, hB]
    show remapCore sub (pyUpdate B mapping)
        = remapCore { sub with varargs := Option.none } (pyUpdate B mapping)
    exact remapCore_varargs_absent hsubva henv

/-- Witness for C6: part (1) at `sub = sup = shapeXRest` with call
`(1, 2, 3)` - the extras `(2, 3)` form the tail; part (2) at `subRestOnly`
against a super-shape binding nothing for `rest`. -/
theorem rest_positional_passthrough_witness :
    (shapeXRest.args.length
        ≤ ([Value.int 1, Value.int 2, Value.int 3] : List Value).length
      ∧ ([Value.int 1, Value.int 2, Value.int 3] : List Value).drop
            shapeXRest.args.length
          = ([Value.int 1, Value.int 2, Value.int 3] : List Value).drop
              (min ([Value.int 1, Value.int 2, Value.int 3] : List Value).length
                shapeXRest.args.length))
    ∧ proxy_function subRestOnly supNoParams [] [] []
        = proxy_function { subRestOnly with varargs := Option.none }
            supNoParams [] [] [] :=
  ⟨(rest_positional_passthrough shapeXRest shapeXRest []
      [Value.int 1, Value.int 2, Value.int 3] [] "rest"
      [("x", Value.int 1), ("rest", Value.list [Value.int 2, Value.int 3])]
      [Value.int 1, Value.int 2, Value.int 3] []).1
      rfl (by simp [shapeXRest]) (by simp [shapeXRest]) rfl rfl rfl rfl,
   (rest_positional_passthrough subRestOnly supNoParams [] [] [] "rest"
      [] [] []).2 rfl rfl rfl⟩

/-- C8: when the sub-shape declares both a rest-keyword collector (bound in
the bound-argument set to a dict, possibly containing the key `k`) and a
keyword-only parameter `k`, the named output at `k` is the keyword-only
resolution - the bound value of `k`, or else `k`'s declared keyword-only
default - never the entry of the merged rest-keyword dict: the keyword-only
loop of lines 63-69 runs after the merge of lines 58-62 and overwrites
same-named entries. -/
theorem kwonly_overwrites_restkw_merge
    (sub sup : FullArgSpec) (args : List Value)
    (kwargs : List (String × Value)) (w k : String) (es B : AList)
    (ps : List Value) (ks : AList)
    (hvk : sub.varkw = Option.some w)
    (hk : k ∈ sub.kwonlyargs)
    (hB : getcallargs sup args kwargs = Except.ok B)
    (hw : alistLookup B w = Option.some (Value.dict es))
    (hes : (alistLookup es k).isSome)
    (hrun : proxy_function sub sup [] args kwargs = Except.ok (ps, ks)) :
    (∃ v, alistLookup B k = Option.some v ∧ alistLookup ks k = Option.some v)
    ∨ (alistLookup B k = Option.none ∧ ∃ kd d,
        sub.kwonlydefaults = Option.some kd
        ∧ alistLookup kd k = Option.some d
        ∧ alistLookup ks k = Option.some d) := by
  obtain ⟨B', hB', hcore⟩ := proxy_function_ok_inv hrun
  rw [hB] at hB'
  cases Except.ok.inj hB'
  obtain ⟨core, base, hp, hv, hkstep, hko⟩ := remapCore_ok_inv hcore
  rcases parseKwonly_ok_lookup_mem hko hk with ⟨v, hvv, hout⟩
    | ⟨hnone, kd, d, hkd, hdl, hout⟩
  · exact Or.inl ⟨v, hvv, hout⟩
  · exact Or.inr ⟨hnone, kd, d, hkd, hdl, hout⟩

/-- Witness for C8 at `subKwMergeK` (declares `**kw` and `k=9`) against
`supKwOnly` called with keyword `k=7`: the collected rest-keyword dict holds
`{k: 7}`, yet the named output holds `k = 9`, the keyword-only default. -/
theorem kwonly_overwrites_restkw_merge_witness :
    (∃ v, alistLookup [("kw", Value.dict [("k", Value.int 7)])] "k"
        = Option.some v
      ∧ alistLookup [("k", Value.int 9)] "k" = Option.some v)
    ∨ (alistLookup [("kw", Value.dict [("k", Value.int 7)])] "k" = Option.none
      ∧ ∃ kd d, subKwMergeK.kwonlydefaults = Option.some kd
        ∧ alistLookup kd "k" = Option.some d
        ∧ alistLookup [("k", Value.int 9)] "k" = Option.some d) :=
  kwonly_overwrites_restkw_merge subKwMergeK supKwOnly [] [("k", Value.int 7)]
    "kw" "k" [("k", Value.int 7)] [("kw", Value.dict [("k", Value.int 7)])]
    [] [("k", Value.int 9)] rfl (by simp [subKwMergeK]) rfl rfl rfl rfl

/-- C9: an overrides entry whose name matches no declared positional
parameter, keyword-only parameter, rest-positional collector name, or
rest-keyword collector name of the sub-shape is irrelevant: the result of
`proxy_function` with that entry is identical to the result without it (in
particular, an unknown override name never causes an error). -/
theorem unknown_override_ignored
    (sub sup : FullArgSpec) (args : List Value)
    (kwargs : List (String × Value)) (m1 m2 : AList) (n : String) (v : Value)
    (h1 : n ∉ sub.args) (h2 : n ∉ sub.kwonlyargs)
    (h3 : sub.varargs ≠ Option.some n) (h4 : sub.varkw ≠ Option.some n) :
    proxy_function sub sup (m1 ++ (n, v) :: m2) args kwargs
      = proxy_function sub sup (m1 ++ m2) args kwargs := by
  rw [proxy_function_eq, proxy_function_eq]
  cases hg : getcallargs sup args kwargs with
  | error e => rfl
  | ok B =>
    show remapCore sub (pyUpdate B (m1 ++ (n, v) :: m2))
        = remapCore sub (pyUpdate B (m1 ++ m2))
    refine remapCore_congr ?_ ?_ ?_ ?_
    · intro a ha
      exact lookup_update_drop_middle B m1 m2 n v (fun hh => h1 (hh ▸ ha))
    · intro r hr
      refine lookup_update_drop_middle B m1 m2 n v (fun hh => h3 ?_)
      rw [← hh]
      exact hr
    · intro r hr
      refine lookup_update_drop_middle B m1 m2 n v (fun hh => h4 ?_)
      rw [← hh]
      exact hr
    · intro kk hkk
      exact lookup_update_drop_middle B m1 m2 n v (fun hh => h2 (hh ▸ hkk))

/-- Witness for C9: the override entry `zzz = 5`, unknown to
`subfunc(y, x)`, leaves the result of the docstring call unchanged. -/
theorem unknown_override_ignored_witness :
    proxy_function subYX supXYZkw [("zzz", Value.int 5)]
      [Value.int 1, Value.int 2, Value.int 3] []
      = proxy_function subYX supXYZkw []
          [Value.int 1, Value.int 2, Value.int 3] [] :=
  unknown_override_ignored subYX supXYZkw
    [Value.int 1, Value.int 2, Value.int 3] [] [] [] "zzz" (Value.int 5)
    (by simp [subYX]) (by simp [subYX]) (by simp [subYX]) (by simp [subYX])

/-- C10: when the overrides mapping binds the sub-shape's rest-positional
collector name `r` to a sequence of values, those values form the tail of the
output positional sequence, even though the super-callable declares no
rest-positional parameter named `r` and the bound-argument set contains no
entry for `r`: the override alone populates the collector (lines 36-38 put it
into `superfunc_arg_values`, and lines 53-55 splat it). -/
theorem override_populates_rest_positional
    (sub sup : FullArgSpec) (mapping : AList) (args : List Value)
    (kwargs : List (String × Value)) (r : String) (vs : List Value)
    (B : AList) (ps : List Value) (ks : AList)
    (hva : sub.varargs = Option.some r)
    (hsup : sup.varargs ≠ Option.some r)
    (hB : getcallargs sup args kwargs = Except.ok B)
    (hnoB : alistLookup B r = Option.none)
    (hnd : (mapping.map Prod.fst).Nodup)
    (hm : alistLookup mapping r = Option.some (Value.list vs))
    (hrun : proxy_function sub sup mapping args kwargs = Except.ok (ps, ks)) :
    sub.args.length ≤ ps.length ∧ ps.drop sub.args.length = vs := by
  obtain ⟨B', hB', hcore⟩ := proxy_function_ok_inv hrun
  rw [hB] at hB'
  cases Except.ok.inj hB'
  have henv : alistLookup (pyUpdate B mapping) r
      = Option.some (Value.list vs) :=
    pyUpdate_lookup_of_lookup_some B hnd hm
  obtain ⟨core, base, hp, hv, hkstep, hko⟩ := remapCore_ok_inv hcore
  have hlen : core.length = sub.args.length := parsePosAux_ok_length hp
  obtain ⟨vs', hvv, hps⟩ := varargsStep_ok_some_inv hva henv hv
  cases Value.list.inj hvv
  constructor
  · rw [hps, List.length_append, ← hlen]
    exact Nat.le_add_right _ _
  · rw [hps, ← hlen, List.drop_left]

/-- Witness for C10: `subRestOnly` (only `*rest`) against `shapeA` called
with `(0)` and overrides `{rest: [7, 8]}` - the override alone fills the
tail `(7, 8)`. -/
theorem override_populates_rest_positional_witness :
    subRestOnly.args.length ≤ ([Value.int 7, Value.int 8] : List Value).length
    ∧ ([Value.int 7, Value.int 8] : List Value).drop subRestOnly.args.length
        = [Value.int 7, Value.int 8] :=
  override_populates_rest_positional subRestOnly shapeA
    [("rest", Value.list [Value.int 7, Value.int 8])] [Value.int 0] []
    "rest" [Value.int 7, Value.int 8] [("a", Value.int 0)]
    [Value.int 7, Value.int 8] []
    rfl (by simp [shapeA]) rfl rfl (by simp) rfl rfl

end FunctionProxy
